import Mathlib

set_option maxRecDepth 40000

/-!
Verification development for `src/clean_outliers.py`.

The Python function `clean_outliers(data, outliers_csv)` is shallow-embedded
here.  A pandas `DataFrame` becomes a `DataFrame` structure: an ordered list
of columns (each with a name and a numeric-dtype flag) and an ordered list of
rows, each row positionally aligned with the columns.  Numeric cells are
`Option ℚ` (with `none` playing the role of `NaN`: comparisons against it are
false and `quantile` drops it, exactly as pandas does); non-numeric cells are
strings and are never inspected.  Rows are tagged with their original
positional index, mirroring the pandas index that survives row filtering.
`pandas.Series.quantile` with the default linear interpolation is embedded as
`quantile`; the per-column loop of the source becomes a fold `runClean` over
the declared column order, threading the shrinking working table, the
accumulated outlier rows and the printed diagnostics.  Writing the CSV with
`pd.DataFrame(outlier_rows).to_csv(..., index=False)` is embedded as
`outliersCsv`: an empty row list yields a `DataFrame` with no columns, hence
an empty header.
-/

inductive Value where
  | num : Option ℚ → Value
  | str : String → Value
deriving DecidableEq, Repr

def Value.toNum : Value → Option ℚ
  | Value.num x => x
  | Value.str _ => none

abbrev Row := List Value

/-- Numeric content of row `r` at column position `j`; `none` when out of
range, non-numeric, or `NaN`. -/
def cellNum (r : Row) (j : Nat) : Option ℚ :=
  (r[j]?).bind Value.toNum

structure Col where
  name : String
  numeric : Bool
deriving DecidableEq, Repr

structure DataFrame where
  cols : List Col
  rows : List Row
deriving DecidableEq, Repr

/-- One printed line `Outlier in row {index} for column {column}: {value}`. -/
structure Diag where
  rowIdx : Nat
  colName : String
  val : Option ℚ
deriving DecidableEq, Repr

/-- State threaded through the per-column loop: `working` is `cleaned_data`
(rows with their original indices), `outliers` is `outlier_rows`, `diags`
the printed lines. -/
structure St where
  working : List (Nat × Row)
  outliers : List (Nat × Row)
  diags : List Diag
deriving DecidableEq, Repr

/-- The written CSV file: a header line and data rows.  `index=False` in the
source means no original-index column is emitted. -/
structure Csv where
  header : List String
  dataRows : List Row
deriving DecidableEq, Repr

/-- `v < b` with pandas `NaN` semantics: any comparison with `NaN` is false. -/
def ltOpt : Option ℚ → Option ℚ → Bool
  | some x, some y => decide (x < y)
  | _, _ => false

/-- `v > b` with pandas `NaN` semantics. -/
def gtOpt : Option ℚ → Option ℚ → Bool
  | some x, some y => decide (y < x)
  | _, _ => false

/-- `NaN`-propagating binary arithmetic on optional rationals. -/
def omap2 (f : ℚ → ℚ → ℚ) : Option ℚ → Option ℚ → Option ℚ
  | some a, some b => some (f a b)
  | _, _ => none

/-- The interpolation rank for quantile `p` over `n` values: `p * (n - 1)`. -/
def rankOf (n : Nat) (p : ℚ) : ℚ :=
  p * ((n : ℚ) - 1)

/-- Linear-interpolation lookup at quantile `p` in an already sorted list
`s`, as `numpy`/`pandas` do it: rank `r = p * (n-1)`, value interpolated
between positions `⌊r⌋` and `⌊r⌋ + 1` (clipped to the last index). -/
def interpAt (s : List ℚ) (p : ℚ) : ℚ :=
  s.getD (⌊rankOf s.length p⌋).toNat 0 +
    (rankOf s.length p - ((⌊rankOf s.length p⌋).toNat : ℚ)) *
      (s.getD (min ((⌊rankOf s.length p⌋).toNat + 1) (s.length - 1)) 0 -
       s.getD (⌊rankOf s.length p⌋).toNat 0)

/-- `Series.quantile(p)` on the non-`NaN` values `xs`: `NaN` (here `none`)
when there are no values, otherwise linear interpolation over the sorted
values. -/
def quantile (xs : List ℚ) (p : ℚ) : Option ℚ :=
  if xs = [] then none else some (interpAt (xs.insertionSort (· ≤ ·)) p)

/-- The non-`NaN` values of column `j` over the current working rows:
what `cleaned_data[column].quantile` actually aggregates. -/
def colValsNN (working : List (Nat × Row)) (j : Nat) : List ℚ :=
  working.filterMap (fun r => cellNum r.2 j)

/-- `IQR = Q3 - Q1`. -/
def iqrOf (xs : List ℚ) : Option ℚ :=
  omap2 (fun a b => a - b) (quantile xs (3/4)) (quantile xs (1/4))

/-- `(Q1 - 1.5*IQR, Q3 + 1.5*IQR)`. -/
def boundsOf (xs : List ℚ) : Option ℚ × Option ℚ :=
  (omap2 (fun a b => a - 3/2 * b) (quantile xs (1/4)) (iqrOf xs),
   omap2 (fun a b => a + 3/2 * b) (quantile xs (3/4)) (iqrOf xs))

/-- The outlier bounds the source computes for column `j` of the current
working table. -/
def boundsAt (working : List (Nat × Row)) (j : Nat) : Option ℚ × Option ℚ :=
  boundsOf (colValsNN working j)

/-- `(cleaned_data[column] < lower_bound) | (cleaned_data[column] > upper_bound)`
for one cell. -/
def isOutlierCell (lb ub v : Option ℚ) : Bool :=
  ltOpt v lb || gtOpt v ub

/-- The Boolean outlier mask the source evaluates for one row of `working`
against column `j`. -/
def outPred (working : List (Nat × Row)) (j : Nat) (r : Nat × Row) : Bool :=
  isOutlierCell (boundsAt working j).1 (boundsAt working j).2 (cellNum r.2 j)

/-- The rows of `working` flagged by column `j` (line 72 of the source),
in their current order. -/
def flaggedAt (working : List (Nat × Row)) (j : Nat) : List (Nat × Row) :=
  working.filter (outPred working j)

/-- The rows surviving column `j` (line 80 of the source). -/
def keptAt (working : List (Nat × Row)) (j : Nat) : List (Nat × Row) :=
  working.filter fun r => !outPred working j r

/-- One iteration of the `for column in cleaned_data.columns` loop, given the
column position `jc.1` and the column itself `jc.2`. -/
def processCol (st : St) (jc : Nat × Col) : St :=
  if jc.2.numeric then
    { working := keptAt st.working jc.1
      outliers := st.outliers ++ flaggedAt st.working jc.1
      diags := st.diags ++
        (flaggedAt st.working jc.1).map fun r => ⟨r.1, jc.2.name, cellNum r.2 jc.1⟩ }
  else st

/-- The state before the loop: `cleaned_data = data.copy()` with the original
indices, no outliers collected, nothing printed. -/
def initSt (df : DataFrame) : St :=
  ⟨df.rows.enum, [], []⟩

/-- The state after the whole column loop. -/
def runClean (df : DataFrame) : St :=
  (df.cols.enum).foldl processCol (initSt df)

/-- The state after the first `k` columns have been processed. -/
def stAfter (df : DataFrame) (k : Nat) : St :=
  ((df.cols.enum).take k).foldl processCol (initSt df)

/-- The rows flagged while column `k` is processed (empty when the column is
out of range or non-numeric). -/
def flaggedAtStep (df : DataFrame) (k : Nat) : List (Nat × Row) :=
  match df.cols[k]? with
  | some c => if c.numeric then flaggedAt (stAfter df k).working k else []
  | none => []

/-- `pd.DataFrame(outlier_rows).to_csv(outliers_csv, index=False)`: an empty
row list builds a `DataFrame` with no columns at all, so the header line is
empty; otherwise every collected row carries the original column index and
the header lists the original column names. -/
def outliersCsv (df : DataFrame) (outs : List (Nat × Row)) : Csv :=
  { header := if outs.isEmpty then [] else df.cols.map Col.name
    dataRows := outs.map Prod.snd }

/-- The whole call: returns the kept table, the written CSV and the printed
diagnostics. -/
def clean_outliers (df : DataFrame) : DataFrame × Csv × List Diag :=
  ({ cols := df.cols, rows := (runClean df).working.map Prod.snd },
   outliersCsv df (runClean df).outliers,
   (runClean df).diags)

/-- The call as seen by a caller who may pass `None`: `None.copy()` raises
`AttributeError` before anything is computed or written. -/
def clean_outliers_opt : Option DataFrame → Except String (DataFrame × Csv × List Diag)
  | none => Except.error "AttributeError: NoneType object has no attribute copy"
  | some df => Except.ok (clean_outliers df)

/-- Modelled from the spec wording of quartile computation (§4.1.b2): the
value at rank `r = p*(n-1)` interpolated between the floor and the ceil
rank of the sorted values. -/
def interpSpecAt (s : List ℚ) (p : ℚ) : ℚ :=
  s.getD (⌊rankOf s.length p⌋).toNat 0 +
    (rankOf s.length p - ((⌊rankOf s.length p⌋).toNat : ℚ)) *
      (s.getD (⌈rankOf s.length p⌉).toNat 0 - s.getD (⌊rankOf s.length p⌋).toNat 0)

/-- Modelled from the spec wording of quartile computation (§4.1.b2): for
percentile `p` over `n` sorted values the rank is `p*(n-1)` and the value is
interpolated between the floor and ceil ranks. -/
def quantileSpec (xs : List ℚ) (p : ℚ) : Option ℚ :=
  if xs = [] then none else some (interpSpecAt (xs.insertionSort (· ≤ ·)) p)

/-- `Q1 - 1.5*IQR` in the spec formulation. -/
def specLowerBound (xs : List ℚ) : Option ℚ :=
  omap2 (fun a b => a - 3/2 * (b - a)) (quantileSpec xs (1/4)) (quantileSpec xs (3/4))

/-- `Q3 + 1.5*IQR` in the spec formulation. -/
def specUpperBound (xs : List ℚ) : Option ℚ :=
  omap2 (fun a b => b + 3/2 * (b - a)) (quantileSpec xs (1/4)) (quantileSpec xs (3/4))

/-- The spec criterion for row `r` being flagged by column `j`: its value
there is strictly below the lower bound or strictly above the upper bound
built from spec-interpolated quartiles of the column values currently in the
working table. -/
def specFlagged (working : List (Nat × Row)) (j : Nat) (r : Nat × Row) : Prop :=
  ∃ x, cellNum r.2 j = some x ∧
    ((∃ l, specLowerBound (colValsNN working j) = some l ∧ x < l) ∨
     (∃ u, specUpperBound (colValsNN working j) = some u ∧ u < x))

/-- The docstring example column: values `1, 2, 3, 1000`. -/
def dfA : DataFrame :=
  ⟨[⟨"A", true⟩],
   [[Value.num (some 1)], [Value.num (some 2)], [Value.num (some 3)],
    [Value.num (some 1000)]]⟩

/-- A single numeric column `1, 2, 3` producing no outliers. -/
def dfB : DataFrame :=
  ⟨[⟨"A", true⟩],
   [[Value.num (some 1)], [Value.num (some 2)], [Value.num (some 3)]]⟩

/-- Three rows, all zero except a single `1`. -/
def dfZ3 : DataFrame :=
  ⟨[⟨"A", true⟩],
   [[Value.num (some 0)], [Value.num (some 0)], [Value.num (some 1)]]⟩

/-- Four rows, all zero except a single `1`. -/
def dfZ4 : DataFrame :=
  ⟨[⟨"A", true⟩],
   [[Value.num (some 0)], [Value.num (some 0)], [Value.num (some 0)],
    [Value.num (some 1)]]⟩

/-- Two numeric columns; the last row is extreme in column `A`. -/
def dfTwo : DataFrame :=
  ⟨[⟨"A", true⟩, ⟨"B", true⟩],
   [[Value.num (some 1), Value.num (some 1)],
    [Value.num (some 2), Value.num (some 2)],
    [Value.num (some 3), Value.num (some 3)],
    [Value.num (some 1000), Value.num (some 4)]]⟩

/-- A table with a single non-numeric column. -/
def dfStr : DataFrame :=
  ⟨[⟨"S", false⟩], [[Value.str "x"], [Value.str "y"]]⟩

/-- A one-row table whose single numeric cell is `NaN`. -/
def dfNaN : DataFrame :=
  ⟨[⟨"A", true⟩], [[Value.num none]]⟩

/-! ### Helper lemmas about `quantile` -/

lemma getD_eq_get (s : List ℚ) (k : Nat) (h : k < s.length) :
    s.getD k 0 = s[k] := by
  simp [List.getD_eq_getElem?_getD, List.getElem?_eq_getElem h]

lemma getD_of_all_eq {s : List ℚ} {v : ℚ} (hall : ∀ x ∈ s, x = v) {k : Nat}
    (h : k < s.length) : s.getD k 0 = v := by
  rw [getD_eq_get s k h]
  exact hall _ (s.getElem_mem h)

lemma rankOf_nonneg {n : Nat} {p : ℚ} (hp0 : 0 ≤ p) (hn : 1 ≤ n) :
    0 ≤ rankOf n p := by
  unfold rankOf
  have h : (1 : ℚ) ≤ (n : ℚ) := by exact_mod_cast hn
  nlinarith

lemma rankOf_le {n : Nat} {p : ℚ} (hp0 : 0 ≤ p) (hp1 : p ≤ 1) (hn : 1 ≤ n) :
    rankOf n p ≤ (n : ℚ) - 1 := by
  unfold rankOf
  have h : (1 : ℚ) ≤ (n : ℚ) := by exact_mod_cast hn
  nlinarith

lemma floor_rank_toNat_le {n : Nat} {p : ℚ} (hp0 : 0 ≤ p) (hp1 : p ≤ 1)
    (hn : 1 ≤ n) : (⌊rankOf n p⌋).toNat ≤ n - 1 := by
  have h1 : ⌊rankOf n p⌋ ≤ (n : ℤ) - 1 := by
    have h2 : ⌊rankOf n p⌋ ≤ ⌊((n : ℚ) - 1)⌋ := Int.floor_mono (rankOf_le hp0 hp1 hn)
    have h3 : ⌊((n : ℚ) - 1)⌋ = (n : ℤ) - 1 := by
      rw [show ((n : ℚ) - 1) = (((n : ℤ) - 1 : ℤ) : ℚ) by push_cast; ring,
        Int.floor_intCast]
    omega
  omega

lemma interpAt_all_eq {s : List ℚ} {v : ℚ} (hne : s ≠ []) (hall : ∀ x ∈ s, x = v)
    {p : ℚ} (hp0 : 0 ≤ p) (hp1 : p ≤ 1) : interpAt s p = v := by
  have hn : 1 ≤ s.length := List.length_pos.mpr hne
  have hi : (⌊rankOf s.length p⌋).toNat ≤ s.length - 1 := floor_rank_toNat_le hp0 hp1 hn
  have h1 : s.getD (⌊rankOf s.length p⌋).toNat 0 = v := getD_of_all_eq hall (by omega)
  have h2 : s.getD (min ((⌊rankOf s.length p⌋).toNat + 1) (s.length - 1)) 0 = v :=
    getD_of_all_eq hall (by omega)
  unfold interpAt
  rw [h1, h2]; ring

lemma sort_mem_iff {xs : List ℚ} {x : ℚ} :
    x ∈ xs.insertionSort (· ≤ ·) ↔ x ∈ xs :=
  (List.perm_insertionSort _ xs).mem_iff

lemma sort_length (xs : List ℚ) :
    (xs.insertionSort (· ≤ ·)).length = xs.length :=
  List.length_insertionSort _ xs

lemma quantile_all_eq {xs : List ℚ} {v : ℚ} (hne : xs ≠ []) (hall : ∀ x ∈ xs, x = v)
    {p : ℚ} (hp0 : 0 ≤ p) (hp1 : p ≤ 1) : quantile xs p = some v := by
  unfold quantile
  rw [if_neg hne]
  congr 1
  refine interpAt_all_eq ?_ ?_ hp0 hp1
  · intro hcon
    exact hne (List.length_eq_zero.mp (by rw [← sort_length xs, hcon]; rfl))
  · intro x hx
    exact hall x (sort_mem_iff.mp hx)

lemma interpSpecAt_eq_interpAt {s : List ℚ} {p : ℚ} (hn : 1 ≤ s.length)
    (hp0 : 0 ≤ p) (hp1 : p ≤ 1) : interpSpecAt s p = interpAt s p := by
  unfold interpSpecAt interpAt
  set r := rankOf s.length p with hr
  have hr0 : 0 ≤ r := rankOf_nonneg hp0 hn
  have hfl0 : (0 : ℤ) ≤ ⌊r⌋ := Int.floor_nonneg.mpr hr0
  have hcast : ((⌊r⌋.toNat : ℚ)) = ((⌊r⌋ : ℤ) : ℚ) := by
    exact_mod_cast congrArg (fun z : ℤ => (z : ℚ)) (Int.toNat_of_nonneg hfl0)
  by_cases hfr : (⌊r⌋ : ℚ) = r
  · have hw : r - ((⌊r⌋.toNat : ℚ)) = 0 := by rw [hcast, hfr]; ring
    rw [hw]; ring
  · have hlt : (⌊r⌋ : ℚ) < r := lt_of_le_of_ne (Int.floor_le r) hfr
    have hceil : ⌈r⌉ = ⌊r⌋ + 1 := by
      have h1 : ⌈r⌉ ≤ ⌊r⌋ + 1 := Int.ceil_le_floor_add_one r
      have h2 : ⌊r⌋ < ⌈r⌉ := by exact_mod_cast lt_of_lt_of_le hlt (Int.le_ceil r)
      omega
    have hrle : r ≤ (s.length : ℚ) - 1 := rankOf_le hp0 hp1 hn
    have hfl_lt : ⌊r⌋ < (s.length : ℤ) - 1 := by
      by_contra hcon
      push_neg at hcon
      have h4 : ((s.length : ℚ) - 1) ≤ (⌊r⌋ : ℚ) := by
        rw [show ((s.length : ℚ) - 1) = (((s.length : ℤ) - 1 : ℤ) : ℚ) by push_cast; ring]
        exact_mod_cast hcon
      linarith
    have hidx : (⌈r⌉).toNat = min ((⌊r⌋).toNat + 1) (s.length - 1) := by
      rw [hceil]; omega
    rw [hidx]

lemma quantileSpec_eq_quantile (xs : List ℚ) {p : ℚ} (hp0 : 0 ≤ p) (hp1 : p ≤ 1) :
    quantileSpec xs p = quantile xs p := by
  unfold quantileSpec quantile
  by_cases hxs : xs = []
  · simp [hxs]
  · rw [if_neg hxs, if_neg hxs]
    congr 1
    refine interpSpecAt_eq_interpAt ?_ hp0 hp1
    rw [sort_length]
    exact List.length_pos.mpr hxs

/-! ### Quantiles of a column that is constant except for one value -/

lemma sorted_replicate (m : Nat) (v : ℚ) : (List.replicate m v).Sorted (· ≤ ·) :=
  List.pairwise_replicate.mpr (Or.inr le_rfl)

lemma sorted_replicate_append {m : Nat} {v w : ℚ} (h : v ≤ w) :
    (List.replicate m v ++ [w]).Sorted (· ≤ ·) := by
  rw [List.Sorted, List.pairwise_append]
  refine ⟨sorted_replicate m v, List.pairwise_singleton _ _, ?_⟩
  intro a ha b hb
  rw [List.eq_of_mem_replicate ha, List.mem_singleton.mp hb]
  exact h

lemma sorted_cons_replicate {m : Nat} {v w : ℚ} (h : w ≤ v) :
    (w :: List.replicate m v).Sorted (· ≤ ·) := by
  rw [List.Sorted, List.pairwise_cons]
  exact ⟨fun b hb => by rw [List.eq_of_mem_replicate hb]; exact h,
    sorted_replicate m v⟩

lemma insertionSort_eq_of_sorted {xs s : List ℚ} (hp : List.Perm xs s)
    (hs : s.Sorted (· ≤ ·)) : xs.insertionSort (· ≤ ·) = s :=
  List.eq_of_perm_of_sorted ((List.perm_insertionSort _ xs).trans hp)
    (List.sorted_insertionSort _ xs) hs

lemma getD_replicate_append_lt {m k : Nat} {v w : ℚ} (h : k < m) :
    (List.replicate m v ++ [w]).getD k 0 = v := by
  have hl : k < (List.replicate m v ++ [w]).length := by simp; omega
  rw [getD_eq_get _ k hl, List.getElem_append_left (by simpa using h)]
  simp

lemma getD_replicate_append_last {m : Nat} {v w : ℚ} :
    (List.replicate m v ++ [w]).getD m 0 = w := by
  have hl : m < (List.replicate m v ++ [w]).length := by simp
  rw [getD_eq_get _ m hl, List.getElem_append_right (by simp)]
  simp

lemma getD_cons_replicate {m k : Nat} {v w : ℚ} (h1 : 1 ≤ k) (h2 : k ≤ m) :
    (w :: List.replicate m v).getD k 0 = v := by
  have hl : k < (w :: List.replicate m v).length := by simp; omega
  rw [getD_eq_get _ k hl]
  cases k with
  | zero => omega
  | succ k' => simp

lemma getD_cons_head {m : Nat} {v w : ℚ} :
    (w :: List.replicate m v).getD 0 0 = w := rfl

lemma interpAt_repl_high_q1 {m : Nat} {v w : ℚ} (hm : 3 ≤ m) :
    interpAt (List.replicate m v ++ [w]) (1/4) = v := by
  have hlen : (List.replicate m v ++ [w]).length = m + 1 := by simp
  unfold interpAt
  rw [hlen]
  simp only [Nat.add_sub_cancel]
  have hr : rankOf (m + 1) (1/4) = (m : ℚ) / 4 := by
    unfold rankOf; push_cast; ring
  rw [hr]
  have hm' : (3 : ℚ) ≤ (m : ℚ) := by exact_mod_cast hm
  have hfl : ⌊(m : ℚ) / 4⌋ ≤ (m : ℤ) - 2 := by
    calc ⌊(m : ℚ) / 4⌋ ≤ ⌊(m : ℚ) - 2⌋ := Int.floor_mono (by linarith)
      _ = (m : ℤ) - 2 := by
          rw [show ((m : ℚ) - 2) = (((m : ℤ) - 2 : ℤ) : ℚ) by push_cast; ring,
            Int.floor_intCast]
  have hfl0 : (0 : ℤ) ≤ ⌊(m : ℚ) / 4⌋ := Int.floor_nonneg.mpr (by positivity)
  rw [getD_replicate_append_lt (show (⌊(m : ℚ) / 4⌋).toNat < m by omega),
    getD_replicate_append_lt
      (show min ((⌊(m : ℚ) / 4⌋).toNat + 1) m < m by omega)]
  ring

lemma interpAt_repl_high_q3 {m : Nat} {v w : ℚ} (hm : 3 ≤ m) :
    ∃ f : ℚ, 0 ≤ f ∧ f ≤ 1/4 ∧
      interpAt (List.replicate m v ++ [w]) (3/4) = v + f * (w - v) := by
  have hlen : (List.replicate m v ++ [w]).length = m + 1 := by simp
  unfold interpAt
  rw [hlen]
  simp only [Nat.add_sub_cancel]
  have hr : rankOf (m + 1) (3/4) = 3 * (m : ℚ) / 4 := by
    unfold rankOf; push_cast; ring
  rw [hr]
  have hm' : (3 : ℚ) ≤ (m : ℚ) := by exact_mod_cast hm
  have hfl0 : (0 : ℤ) ≤ ⌊3 * (m : ℚ) / 4⌋ := Int.floor_nonneg.mpr (by positivity)
  have hflm : ⌊3 * (m : ℚ) / 4⌋ ≤ (m : ℤ) - 1 := by
    have h1 : ⌊3 * (m : ℚ) / 4⌋ < (m : ℤ) := Int.floor_lt.mpr (by push_cast; linarith)
    omega
  by_cases hcase : (⌊3 * (m : ℚ) / 4⌋).toNat + 1 ≤ m - 1
  · refine ⟨0, le_rfl, by norm_num, ?_⟩
    rw [getD_replicate_append_lt (show (⌊3 * (m : ℚ) / 4⌋).toNat < m by omega),
      getD_replicate_append_lt
        (show min ((⌊3 * (m : ℚ) / 4⌋).toNat + 1) m < m by omega)]
    ring
  · have him : (⌊3 * (m : ℚ) / 4⌋).toNat = m - 1 := by omega
    have hmin : min ((⌊3 * (m : ℚ) / 4⌋).toNat + 1) m = m := by omega
    rw [hmin, getD_replicate_append_lt (show (⌊3 * (m : ℚ) / 4⌋).toNat < m by omega),
      getD_replicate_append_last]
    refine ⟨3 * (m : ℚ) / 4 - ((⌊3 * (m : ℚ) / 4⌋).toNat : ℚ), ?_, ?_, by ring⟩
    · have hc : (((⌊3 * (m : ℚ) / 4⌋).toNat : ℚ)) = ((⌊3 * (m : ℚ) / 4⌋ : ℤ) : ℚ) := by
        calc (((⌊3 * (m : ℚ) / 4⌋).toNat : ℚ))
            = ((((⌊3 * (m : ℚ) / 4⌋).toNat : ℤ) : ℚ)) := by push_cast; ring
          _ = ((⌊3 * (m : ℚ) / 4⌋ : ℤ) : ℚ) := by rw [Int.toNat_of_nonneg hfl0]
      rw [hc]
      linarith [Int.floor_le (3 * (m : ℚ) / 4)]
    · have h2 : ((⌊3 * (m : ℚ) / 4⌋).toNat : ℤ) = (m : ℤ) - 1 := by omega
      have hc : (((⌊3 * (m : ℚ) / 4⌋).toNat : ℚ)) = (m : ℚ) - 1 := by
        calc (((⌊3 * (m : ℚ) / 4⌋).toNat : ℚ))
            = ((((⌊3 * (m : ℚ) / 4⌋).toNat : ℤ) : ℚ)) := by push_cast; ring
          _ = (m : ℚ) - 1 := by rw [h2]; push_cast; ring
      rw [hc]
      linarith

lemma interpAt_cons_repl_q3 {m : Nat} {v w : ℚ} (hm : 3 ≤ m) :
    interpAt (w :: List.replicate m v) (3/4) = v := by
  have hlen : (w :: List.replicate m v).length = m + 1 := by simp
  unfold interpAt
  rw [hlen]
  simp only [Nat.add_sub_cancel]
  have hr : rankOf (m + 1) (3/4) = 3 * (m : ℚ) / 4 := by
    unfold rankOf; push_cast; ring
  rw [hr]
  have hm' : (3 : ℚ) ≤ (m : ℚ) := by exact_mod_cast hm
  have h2 : (2 : ℤ) ≤ ⌊3 * (m : ℚ) / 4⌋ := by
    rw [Int.le_floor]
    push_cast
    linarith
  have hflm : ⌊3 * (m : ℚ) / 4⌋ ≤ (m : ℤ) - 1 := by
    have h1 : ⌊3 * (m : ℚ) / 4⌋ < (m : ℤ) := Int.floor_lt.mpr (by push_cast; linarith)
    omega
  rw [getD_cons_replicate (show 1 ≤ (⌊3 * (m : ℚ) / 4⌋).toNat by omega)
      (show (⌊3 * (m : ℚ) / 4⌋).toNat ≤ m by omega),
    getD_cons_replicate (show 1 ≤ min ((⌊3 * (m : ℚ) / 4⌋).toNat + 1) m by omega)
      (show min ((⌊3 * (m : ℚ) / 4⌋).toNat + 1) m ≤ m by omega)]
  ring

lemma interpAt_cons_repl_q1 {m : Nat} {v w : ℚ} (hm : 3 ≤ m) :
    ∃ f : ℚ, 0 ≤ f ∧ f ≤ 1/4 ∧
      interpAt (w :: List.replicate m v) (1/4) = v - f * (v - w) := by
  have hlen : (w :: List.replicate m v).length = m + 1 := by simp
  unfold interpAt
  rw [hlen]
  simp only [Nat.add_sub_cancel]
  have hr : rankOf (m + 1) (1/4) = (m : ℚ) / 4 := by
    unfold rankOf; push_cast; ring
  rw [hr]
  have hm' : (3 : ℚ) ≤ (m : ℚ) := by exact_mod_cast hm
  have hfl0 : (0 : ℤ) ≤ ⌊(m : ℚ) / 4⌋ := Int.floor_nonneg.mpr (by positivity)
  have hfl : ⌊(m : ℚ) / 4⌋ ≤ (m : ℤ) - 2 := by
    calc ⌊(m : ℚ) / 4⌋ ≤ ⌊(m : ℚ) - 2⌋ := Int.floor_mono (by linarith)
      _ = (m : ℤ) - 2 := by
          rw [show ((m : ℚ) - 2) = (((m : ℤ) - 2 : ℤ) : ℚ) by push_cast; ring,
            Int.floor_intCast]
  by_cases hi0 : (⌊(m : ℚ) / 4⌋).toNat = 0
  · have hflz : ⌊(m : ℚ) / 4⌋ = 0 := by omega
    rw [hi0, show min (0 + 1) m = 1 from by omega,
      getD_cons_replicate le_rfl (by omega), getD_cons_head]
    refine ⟨1 - (m : ℚ) / 4, ?_, by linarith, by push_cast; ring⟩
    · have hlt1 : (m : ℚ) / 4 < 1 := by
        have := Int.lt_floor_add_one ((m : ℚ) / 4)
        rw [hflz] at this
        push_cast at this
        linarith
      linarith
  · rw [getD_cons_replicate (show 1 ≤ (⌊(m : ℚ) / 4⌋).toNat by omega)
        (show (⌊(m : ℚ) / 4⌋).toNat ≤ m by omega),
      getD_cons_replicate (show 1 ≤ min ((⌊(m : ℚ) / 4⌋).toNat + 1) m by omega)
        (show min ((⌊(m : ℚ) / 4⌋).toNat + 1) m ≤ m by omega)]
    exact ⟨0, le_rfl, by norm_num, by ring⟩

lemma quantile_one_off_high {m : Nat} {v w : ℚ} {xs : List ℚ} (hm : 3 ≤ m)
    (hvw : v < w) (hperm : List.Perm xs (List.replicate m v ++ [w])) :
    quantile xs (1/4) = some v ∧
    ∃ f : ℚ, 0 ≤ f ∧ f ≤ 1/4 ∧ quantile xs (3/4) = some (v + f * (w - v)) := by
  have hne : xs ≠ [] := by
    intro h
    have hl := hperm.length_eq
    rw [h] at hl
    simp at hl
  have hsort : xs.insertionSort (· ≤ ·) = List.replicate m v ++ [w] :=
    insertionSort_eq_of_sorted hperm (sorted_replicate_append hvw.le)
  constructor
  · unfold quantile
    rw [if_neg hne, hsort]
    exact congrArg some (interpAt_repl_high_q1 hm)
  · obtain ⟨f, h0, h1, heq⟩ := interpAt_repl_high_q3 (v := v) (w := w) hm
    refine ⟨f, h0, h1, ?_⟩
    unfold quantile
    rw [if_neg hne, hsort]
    exact congrArg some heq

lemma quantile_one_off_low {m : Nat} {v w : ℚ} {xs : List ℚ} (hm : 3 ≤ m)
    (hwv : w < v) (hperm : List.Perm xs (w :: List.replicate m v)) :
    (∃ f : ℚ, 0 ≤ f ∧ f ≤ 1/4 ∧ quantile xs (1/4) = some (v - f * (v - w))) ∧
    quantile xs (3/4) = some v := by
  have hne : xs ≠ [] := by
    intro h
    have hl := hperm.length_eq
    rw [h] at hl
    simp at hl
  have hsort : xs.insertionSort (· ≤ ·) = w :: List.replicate m v :=
    insertionSort_eq_of_sorted hperm (sorted_cons_replicate hwv.le)
  constructor
  · obtain ⟨f, h0, h1, heq⟩ := interpAt_cons_repl_q1 (v := v) (w := w) hm
    refine ⟨f, h0, h1, ?_⟩
    unfold quantile
    rw [if_neg hne, hsort]
    exact congrArg some heq
  · unfold quantile
    rw [if_neg hne, hsort]
    exact congrArg some (interpAt_cons_repl_q3 hm)

/-! ### Invariants of the per-column fold -/

lemma processCol_nonnumeric {st : St} {jc : Nat × Col} (h : jc.2.numeric = false) :
    processCol st jc = st := by
  unfold processCol
  rw [h]
  rfl

lemma processCol_numeric {st : St} {jc : Nat × Col} (h : jc.2.numeric = true) :
    processCol st jc =
      { working := keptAt st.working jc.1
        outliers := st.outliers ++ flaggedAt st.working jc.1
        diags := st.diags ++
          (flaggedAt st.working jc.1).map fun r => ⟨r.1, jc.2.name, cellNum r.2 jc.1⟩ } := by
  unfold processCol
  rw [h]
  rfl

lemma foldl_id_of_nonnumeric {l : List (Nat × Col)} {st : St}
    (h : ∀ p ∈ l, p.2.numeric = false) : l.foldl processCol st = st := by
  induction l generalizing st with
  | nil => rfl
  | cons a l ih =>
    rw [List.foldl_cons, processCol_nonnumeric (h a (List.mem_cons_self a l))]
    exact ih fun p hp => h p (List.mem_cons_of_mem a hp)

lemma processCol_working_sublist (st : St) (jc : Nat × Col) :
    List.Sublist (processCol st jc).working st.working := by
  cases hn : jc.2.numeric
  · rw [processCol_nonnumeric hn]
  · rw [processCol_numeric hn]
    exact List.filter_sublist _

lemma foldl_working_sublist (l : List (Nat × Col)) (st : St) :
    List.Sublist (l.foldl processCol st).working st.working := by
  induction l generalizing st with
  | nil => exact List.Sublist.refl _
  | cons a l ih =>
    rw [List.foldl_cons]
    exact (ih (processCol st a)).trans (processCol_working_sublist st a)

lemma foldl_outliers_extend (l : List (Nat × Col)) (st : St) :
    ∃ add : List (Nat × Row), (l.foldl processCol st).outliers = st.outliers ++ add ∧
      ∀ r ∈ add, r ∈ st.working := by
  induction l generalizing st with
  | nil => exact ⟨[], by simp, by simp⟩
  | cons a l ih =>
    rw [List.foldl_cons]
    obtain ⟨add, hadd, hmem⟩ := ih (processCol st a)
    cases hn : a.2.numeric
    · rw [processCol_nonnumeric hn] at hadd hmem ⊢
      exact ⟨add, hadd, hmem⟩
    · refine ⟨flaggedAt st.working a.1 ++ add, ?_, ?_⟩
      · rw [hadd, processCol_numeric hn]
        simp
      · intro r hr
        rcases List.mem_append.mp hr with h | h
        · exact List.mem_of_mem_filter h
        · have hm2 := hmem r h
          rw [processCol_numeric hn] at hm2
          exact List.mem_of_mem_filter hm2

lemma processCol_pair_perm (st : St) (jc : Nat × Col) :
    List.Perm ((processCol st jc).working ++ (processCol st jc).outliers)
      (st.working ++ st.outliers) := by
  cases hn : jc.2.numeric
  · rw [processCol_nonnumeric hn]
  · rw [processCol_numeric hn]
    show List.Perm (keptAt st.working jc.1 ++ (st.outliers ++ flaggedAt st.working jc.1)) _
    have h1 : List.Perm (flaggedAt st.working jc.1 ++ keptAt st.working jc.1)
        st.working := List.filter_append_perm _ _
    have h3 : List.Perm
        (keptAt st.working jc.1 ++ (st.outliers ++ flaggedAt st.working jc.1))
        (keptAt st.working jc.1 ++ (flaggedAt st.working jc.1 ++ st.outliers)) :=
      List.Perm.append_left _ List.perm_append_comm
    have h4 : keptAt st.working jc.1 ++ (flaggedAt st.working jc.1 ++ st.outliers) =
        (keptAt st.working jc.1 ++ flaggedAt st.working jc.1) ++ st.outliers :=
      (List.append_assoc _ _ _).symm
    have h6 : List.Perm
        ((keptAt st.working jc.1 ++ flaggedAt st.working jc.1) ++ st.outliers)
        (st.working ++ st.outliers) :=
      List.Perm.append_right st.outliers (List.perm_append_comm.trans h1)
    exact h3.trans (h4 ▸ h6)

lemma foldl_pair_nodup (l : List (Nat × Col)) (st : St)
    (h : (((st.working ++ st.outliers).map Prod.fst).Nodup)) :
    ((((l.foldl processCol st).working ++
        (l.foldl processCol st).outliers).map Prod.fst).Nodup) := by
  induction l generalizing st with
  | nil => exact h
  | cons a l ih =>
    rw [List.foldl_cons]
    exact ih (processCol st a)
      ((((processCol_pair_perm st a).map Prod.fst).nodup_iff).mpr h)

/-! ### The state after `k` columns -/

lemma stAfter_succ (df : DataFrame) {k : Nat} (h : k < df.cols.length) :
    stAfter df (k + 1) = processCol (stAfter df k) (k, df.cols[k]) := by
  unfold stAfter
  rw [List.take_succ]
  have he : (df.cols.enum)[k]? = some (k, df.cols[k]) := by
    rw [List.getElem?_enum, List.getElem?_eq_getElem h]
    rfl
  rw [he]
  simp

lemma stAfter_working_mono (df : DataFrame) {k k' : Nat} (h : k ≤ k') :
    List.Sublist (stAfter df k').working (stAfter df k).working := by
  obtain ⟨d, rfl⟩ : ∃ d, k' = k + d := ⟨k' - k, by omega⟩
  unfold stAfter
  rw [List.take_add, List.foldl_append]
  exact foldl_working_sublist _ _

lemma runClean_eq_stAfter (df : DataFrame) :
    runClean df = stAfter df df.cols.length := by
  unfold runClean stAfter
  rw [show (df.cols.enum).take df.cols.length = df.cols.enum from by
    rw [← List.enum_length (l := df.cols)]
    exact List.take_length _]

lemma flaggedAtStep_cases {df : DataFrame} {k : Nat} {r : Nat × Row}
    (hr : r ∈ flaggedAtStep df k) :
    ∃ hk : k < df.cols.length, (df.cols.get ⟨k, hk⟩).numeric = true ∧
      r ∈ (stAfter df k).working ∧ outPred (stAfter df k).working k r = true := by
  unfold flaggedAtStep at hr
  split at hr
  · rename_i c hc
    split at hr
    · rename_i hn
      obtain ⟨hk, hceq⟩ := List.getElem?_eq_some_iff.mp hc
      refine ⟨hk, ?_, List.mem_of_mem_filter hr, List.of_mem_filter hr⟩
      rw [List.get_eq_getElem, hceq]
      exact hn
    · simp at hr
  · simp at hr

lemma flagged_not_in_later {df : DataFrame} {i j : Nat} (hij : i < j)
    {r : Nat × Row} (hr : r ∈ flaggedAtStep df i) :
    r ∉ (stAfter df j).working := by
  obtain ⟨hi_lt, hnum, hmem, hpred⟩ := flaggedAtStep_cases hr
  intro hrj
  have hrj1 : r ∈ (stAfter df (i + 1)).working :=
    (stAfter_working_mono df (show i + 1 ≤ j by omega)).subset hrj
  rw [stAfter_succ df hi_lt] at hrj1
  have hnum' : (df.cols[i]).numeric = true := by
    rwa [List.get_eq_getElem] at hnum
  rw [processCol_numeric hnum'] at hrj1
  have hkept := List.of_mem_filter hrj1
  simp only [hpred] at hkept
  exact absurd hkept (by simp)

lemma flagged_not_in_final {df : DataFrame} {i : Nat} {r : Nat × Row}
    (hr : r ∈ flaggedAtStep df i) : r ∉ (runClean df).working := by
  rw [runClean_eq_stAfter]
  obtain ⟨hi_lt, -, -, -⟩ := flaggedAtStep_cases hr
  exact flagged_not_in_later hi_lt hr

/-! ### Monotonicity of the interpolated quantile, and the two bounds -/

lemma getD_mono_of_sorted {s : List ℚ} (hs : s.Sorted (· ≤ ·)) {k k' : Nat}
    (hkk : k ≤ k') (hk' : k' < s.length) : s.getD k 0 ≤ s.getD k' 0 := by
  rw [getD_eq_get _ _ (lt_of_le_of_lt hkk hk'), getD_eq_get _ _ hk']
  rcases eq_or_lt_of_le hkk with rfl | hlt
  · exact le_rfl
  · have h2 : (⟨k, lt_of_le_of_lt hkk hk'⟩ : Fin s.length) < ⟨k', hk'⟩ := hlt
    have h3 := hs.rel_get_of_lt h2
    simpa using h3

lemma toNat_floor_cast {r : ℚ} (h : 0 ≤ r) :
    (((⌊r⌋).toNat : ℚ)) = ((⌊r⌋ : ℤ) : ℚ) := by
  calc (((⌊r⌋).toNat : ℚ)) = ((((⌊r⌋).toNat : ℤ) : ℚ)) := by push_cast; ring
    _ = ((⌊r⌋ : ℤ) : ℚ) := by rw [Int.toNat_of_nonneg (Int.floor_nonneg.mpr h)]

lemma frac_nonneg {r : ℚ} (h : 0 ≤ r) : 0 ≤ r - ((⌊r⌋).toNat : ℚ) := by
  rw [toNat_floor_cast h]
  linarith [Int.floor_le r]

lemma frac_lt_one {r : ℚ} (h : 0 ≤ r) : r - ((⌊r⌋).toNat : ℚ) < 1 := by
  rw [toNat_floor_cast h]
  linarith [Int.lt_floor_add_one r]

lemma interpAt_mono {s : List ℚ} (hs : s.Sorted (· ≤ ·)) (hne : s ≠ [])
    {p p' : ℚ} (hp0 : 0 ≤ p) (hpp : p ≤ p') (hp1 : p' ≤ 1) :
    interpAt s p ≤ interpAt s p' := by
  have hn : 1 ≤ s.length := List.length_pos.mpr hne
  have hp'0 : 0 ≤ p' := le_trans hp0 hpp
  have hp1' : p ≤ 1 := le_trans hpp hp1
  have hr0 : 0 ≤ rankOf s.length p := rankOf_nonneg hp0 hn
  have hr0' : 0 ≤ rankOf s.length p' := rankOf_nonneg hp'0 hn
  have hrr : rankOf s.length p ≤ rankOf s.length p' := by
    unfold rankOf
    have h1 : (1 : ℚ) ≤ (s.length : ℚ) := by exact_mod_cast hn
    nlinarith
  have hiN : (⌊rankOf s.length p⌋).toNat ≤ s.length - 1 := floor_rank_toNat_le hp0 hp1' hn
  have hiN' : (⌊rankOf s.length p'⌋).toNat ≤ s.length - 1 := floor_rank_toNat_le hp'0 hp1 hn
  have hfl0 : (0 : ℤ) ≤ ⌊rankOf s.length p⌋ := Int.floor_nonneg.mpr hr0
  have hfl0' : (0 : ℤ) ≤ ⌊rankOf s.length p'⌋ := Int.floor_nonneg.mpr hr0'
  have hii : (⌊rankOf s.length p⌋).toNat ≤ (⌊rankOf s.length p'⌋).toNat := by
    have h2 := Int.floor_mono hrr
    omega
  have hlo_le_hi : s.getD (⌊rankOf s.length p⌋).toNat 0 ≤
      s.getD (min ((⌊rankOf s.length p⌋).toNat + 1) (s.length - 1)) 0 :=
    getD_mono_of_sorted hs (by omega) (by omega)
  have hlo_le_hi' : s.getD (⌊rankOf s.length p'⌋).toNat 0 ≤
      s.getD (min ((⌊rankOf s.length p'⌋).toNat + 1) (s.length - 1)) 0 :=
    getD_mono_of_sorted hs (by omega) (by omega)
  have hf0 := frac_nonneg hr0
  have hf0' := frac_nonneg hr0'
  have hf1 := frac_lt_one hr0
  have hf1' := frac_lt_one hr0'
  rcases eq_or_lt_of_le hii with heq | hlt
  · unfold interpAt
    rw [← heq]
    have hw : rankOf s.length p - (((⌊rankOf s.length p⌋).toNat : ℚ)) ≤
        rankOf s.length p' - (((⌊rankOf s.length p⌋).toNat : ℚ)) := by linarith
    nlinarith [mul_nonneg (sub_nonneg.mpr hrr)
      (sub_nonneg.mpr hlo_le_hi)]
  · have h1 : interpAt s p ≤
        s.getD (min ((⌊rankOf s.length p⌋).toNat + 1) (s.length - 1)) 0 := by
      unfold interpAt
      nlinarith [mul_nonneg
        (show (0 : ℚ) ≤ 1 - (rankOf s.length p - (((⌊rankOf s.length p⌋).toNat : ℚ)))
          from by linarith)
        (sub_nonneg.mpr hlo_le_hi)]
    have h2 : s.getD (min ((⌊rankOf s.length p⌋).toNat + 1) (s.length - 1)) 0 ≤
        s.getD (⌊rankOf s.length p'⌋).toNat 0 :=
      getD_mono_of_sorted hs (by omega) (by omega)
    have h3 : s.getD (⌊rankOf s.length p'⌋).toNat 0 ≤ interpAt s p' := by
      unfold interpAt
      nlinarith [mul_nonneg hf0' (sub_nonneg.mpr hlo_le_hi')]
    linarith

lemma quantile_q1_le_q3 {xs : List ℚ} (hne : xs ≠ []) :
    ∃ a b : ℚ, quantile xs (1/4) = some a ∧ quantile xs (3/4) = some b ∧ a ≤ b := by
  unfold quantile
  rw [if_neg hne, if_neg hne]
  refine ⟨_, _, rfl, rfl, ?_⟩
  refine interpAt_mono (List.sorted_insertionSort _ xs) ?_ (by norm_num) (by norm_num)
    (by norm_num)
  intro hcon
  exact hne (List.length_eq_zero.mp (by rw [← sort_length xs, hcon]; rfl))

lemma boundsOf_some {xs : List ℚ} (hne : xs ≠ []) :
    ∃ q1 q3 : ℚ, q1 ≤ q3 ∧
      quantile xs (1/4) = some q1 ∧ quantile xs (3/4) = some q3 ∧
      boundsOf xs = (some (q1 - 3/2 * (q3 - q1)), some (q3 + 3/2 * (q3 - q1))) := by
  obtain ⟨a, b, ha, hb, hab⟩ := quantile_q1_le_q3 hne
  refine ⟨a, b, hab, ha, hb, ?_⟩
  unfold boundsOf iqrOf
  rw [ha, hb]
  rfl

lemma quantile_nil (p : ℚ) : quantile [] p = none := rfl

lemma boundsOf_nil : boundsOf [] = (none, none) := rfl

lemma boundsOf_lb_le_ub {xs : List ℚ} {lb ub : ℚ}
    (h : boundsOf xs = (some lb, some ub)) : lb ≤ ub := by
  by_cases hne : xs = []
  · rw [hne, boundsOf_nil] at h
    exact absurd (congrArg Prod.fst h) (by simp)
  · obtain ⟨q1, q3, hle, h1, h3, heq⟩ := boundsOf_some hne
    rw [heq] at h
    have hl : q1 - 3/2 * (q3 - q1) = lb := Option.some.inj (congrArg Prod.fst h)
    have hu : q3 + 3/2 * (q3 - q1) = ub := Option.some.inj (congrArg Prod.snd h)
    linarith

/-! ### Spec-side bounds agree with the code-side bounds -/

lemma specLowerBound_eq (xs : List ℚ) : specLowerBound xs = (boundsOf xs).1 := by
  unfold specLowerBound boundsOf iqrOf
  rw [quantileSpec_eq_quantile xs (by norm_num) (by norm_num),
    quantileSpec_eq_quantile xs (by norm_num) (by norm_num)]
  rcases quantile xs (1/4) with _ | a <;> rcases quantile xs (3/4) with _ | b <;>
    simp [omap2]

lemma specUpperBound_eq (xs : List ℚ) : specUpperBound xs = (boundsOf xs).2 := by
  unfold specUpperBound boundsOf iqrOf
  rw [quantileSpec_eq_quantile xs (by norm_num) (by norm_num),
    quantileSpec_eq_quantile xs (by norm_num) (by norm_num)]
  rcases quantile xs (1/4) with _ | a <;> rcases quantile xs (3/4) with _ | b <;>
    simp [omap2]

/-! ### Column values -/

lemma colValsNN_enum (l : List Row) (j : Nat) :
    colValsNN l.enum j = l.filterMap (fun r => cellNum r j) := by
  unfold colValsNN
  rw [show (fun r : Nat × Row => cellNum r.2 j) =
      ((fun r => cellNum r j) ∘ Prod.snd) from rfl,
    ← List.filterMap_map, List.enum_map_snd]

lemma filterMap_const_some {l : List Row} {j : Nat} {v : ℚ}
    (h : ∀ r ∈ l, cellNum r j = some v) :
    l.filterMap (fun r => cellNum r j) = List.replicate l.length v := by
  induction l with
  | nil => rfl
  | cons a l ih =>
    simp only [List.filterMap_cons, h a (List.mem_cons_self a l), List.length_cons,
      List.replicate_succ]
    exact congrArg (v :: ·) (ih fun r hr => h r (List.mem_cons_of_mem a hr))

lemma nan_row_stays {l : List (Nat × Col)} {st : St} {r : Nat × Row}
    (hnan : ∀ j, cellNum r.2 j = none) (hmem : r ∈ st.working) :
    r ∈ (l.foldl processCol st).working := by
  induction l generalizing st with
  | nil => exact hmem
  | cons a l ih =>
    rw [List.foldl_cons]
    refine ih ?_
    cases hn : a.2.numeric
    · rw [processCol_nonnumeric hn]
      exact hmem
    · rw [processCol_numeric hn]
      have hfalse : outPred st.working a.1 r = false := by
        unfold outPred isOutlierCell
        rw [hnan a.1]
        rcases (boundsAt st.working a.1).1 with _ | b1 <;>
          rcases (boundsAt st.working a.1).2 with _ | b2 <;> rfl
      exact List.mem_filter.mpr ⟨hmem, by rw [hfalse]; rfl⟩

lemma initSt_key_nodup (df : DataFrame) :
    (((initSt df).working ++ (initSt df).outliers).map Prod.fst).Nodup := by
  unfold initSt
  simp [List.enum_map_fst, List.nodup_range]

/-! ### The claims -/

/-- C7: a table with no numeric column is returned unchanged, nothing is
printed, and the outliers file has zero data rows (its header is also empty,
see C5). -/
theorem c7_no_numeric_identity (df : DataFrame)
    (h : ∀ c ∈ df.cols, c.numeric = false) :
    clean_outliers df = (df, ⟨[], []⟩, []) := by
  have hrun : runClean df = initSt df := by
    refine foldl_id_of_nonnumeric ?_
    intro p hp
    refine h p.2 ?_
    have h2 : p.2 ∈ (df.cols.enum).map Prod.snd := List.mem_map_of_mem Prod.snd hp
    rwa [List.enum_map_snd] at h2
  rcases df with ⟨cols, rows⟩
  unfold clean_outliers
  rw [hrun]
  unfold initSt outliersCsv
  simp [List.enum_map_snd]

/-- C7 witness: the single-column non-numeric table is returned exactly. -/
theorem c7_witness : clean_outliers dfStr = (dfStr, ⟨[], []⟩, []) :=
  c7_no_numeric_identity dfStr (by intro c hc; fin_cases hc <;> rfl)

/-- C8: a `None` table fails at `data.copy()` with an `AttributeError` before
anything is computed, so no kept table and no file contents are produced. -/
theorem c8_null_table_error :
    clean_outliers_opt none =
      Except.error "AttributeError: NoneType object has no attribute copy" ∧
    (clean_outliers_opt none).toOption = none :=
  ⟨rfl, rfl⟩

/-- C9: every input row is collected as an outlier at most once — the indices
of the collected outlier rows are pairwise distinct — and the outliers file
carries exactly one data row per collected record. -/
theorem c9_outliers_nodup (df : DataFrame) :
    ((runClean df).outliers.map Prod.fst).Nodup ∧
    (outliersCsv df (runClean df).outliers).dataRows =
      (runClean df).outliers.map Prod.snd := by
  constructor
  · have h1 := foldl_pair_nodup (df.cols.enum) (initSt df) (initSt_key_nodup df)
    rw [List.map_append] at h1
    exact List.Nodup.of_append_right h1
  · rfl

/-- C9 witness: on the docstring example table the collected outlier indices
are distinct. -/
theorem c9_witness : ((runClean dfA).outliers.map Prod.fst).Nodup :=
  (c9_outliers_nodup dfA).1

/-- C3: the kept table keeps the column structure, its rows are a sublist of
the input rows (unmodified values, original relative order), every collected
outlier row is an input row with its original index, every data row written
to the file is an input row, and no original index is both kept and
collected. -/
theorem c3_partition_unmodified (df : DataFrame) :
    (clean_outliers df).1.cols = df.cols ∧
    List.Sublist (clean_outliers df).1.rows df.rows ∧
    (∀ p ∈ (runClean df).outliers, p ∈ df.rows.enum) ∧
    (∀ row ∈ (clean_outliers df).2.1.dataRows, row ∈ df.rows) ∧
    List.Disjoint ((runClean df).working.map Prod.fst)
      ((runClean df).outliers.map Prod.fst) := by
  have hsub : List.Sublist (runClean df).working df.rows.enum :=
    foldl_working_sublist (df.cols.enum) (initSt df)
  have houts : ∀ p ∈ (runClean df).outliers, p ∈ df.rows.enum := by
    obtain ⟨add, hadd, hmem⟩ := foldl_outliers_extend (df.cols.enum) (initSt df)
    intro p hp
    have hp2 : p ∈ (runClean df).outliers := hp
    rw [show (runClean df).outliers = (initSt df).outliers ++ add from hadd] at hp2
    have hp3 : p ∈ add := by simpa [initSt] using hp2
    exact hmem p hp3
  refine ⟨rfl, ?_, houts, ?_, ?_⟩
  · have h2 := hsub.map Prod.snd
    rwa [List.enum_map_snd] at h2
  · intro row hrow
    have hrow' : row ∈ (runClean df).outliers.map Prod.snd := hrow
    obtain ⟨p, hp, rfl⟩ := List.mem_map.mp hrow'
    have h3 := houts p hp
    have h4 : p.2 ∈ (df.rows.enum).map Prod.snd := List.mem_map_of_mem Prod.snd h3
    rwa [List.enum_map_snd] at h4
  · have h1 := foldl_pair_nodup (df.cols.enum) (initSt df) (initSt_key_nodup df)
    rw [List.map_append] at h1
    exact (List.nodup_append.mp h1).2.2

/-- C3 witness: on the docstring example table, every conjunct holds at the
concrete run. -/
theorem c3_witness :
    List.Sublist (clean_outliers dfA).1.rows dfA.rows ∧
    ((3, [Value.num (some 1000)]) ∈ (runClean dfA).outliers →
      (3, [Value.num (some 1000)]) ∈ dfA.rows.enum) ∧
    ([Value.num (some 1000)] ∈ (clean_outliers dfA).2.1.dataRows →
      [Value.num (some 1000)] ∈ dfA.rows) :=
  ⟨(c3_partition_unmodified dfA).2.1,
   fun h => (c3_partition_unmodified dfA).2.2.1 _ h,
   fun h => (c3_partition_unmodified dfA).2.2.2.1 _ h⟩

/-- C10: a missing (`NaN`) value is never flagged: every flagged row has a
present value in the flagging column; a column whose current values are all
missing (or whose working table is empty) gets undefined (`NaN`) bounds and
flags nothing instead of raising; a row whose value in the processed column
is missing survives that column; and a row all of whose cells are missing is
always in the returned kept table. -/
theorem c10_nan_never_flagged :
    (∀ (W : List (Nat × Row)) (j : Nat) (r : Nat × Row),
      r ∈ flaggedAt W j → ∃ x : ℚ, cellNum r.2 j = some x) ∧
    (∀ (W : List (Nat × Row)) (j : Nat), colValsNN W j = [] →
      flaggedAt W j = [] ∧ boundsAt W j = (none, none)) ∧
    (∀ (W : List (Nat × Row)) (j : Nat) (r : Nat × Row),
      r ∈ W → cellNum r.2 j = none → r ∈ keptAt W j) ∧
    (∀ (df : DataFrame) (r : Nat × Row), r ∈ df.rows.enum →
      (∀ j, cellNum r.2 j = none) → r ∈ (runClean df).working) := by
  have hnone : ∀ (W : List (Nat × Row)) (j : Nat) (r : Nat × Row),
      cellNum r.2 j = none → outPred W j r = false := by
    intro W j r hc
    unfold outPred isOutlierCell
    rw [hc]
    rcases (boundsAt W j).1 with _ | b1 <;> rcases (boundsAt W j).2 with _ | b2 <;> rfl
  refine ⟨?_, ?_, ?_, ?_⟩
  · intro W j r hr
    rcases hc : cellNum r.2 j with _ | x
    · have h1 := List.of_mem_filter hr
      rw [hnone W j r hc] at h1
      exact absurd h1 (by simp)
    · exact ⟨x, rfl⟩
  · intro W j hv
    constructor
    · refine List.filter_eq_nil_iff.mpr ?_
      intro r hr
      unfold outPred isOutlierCell
      show ¬(ltOpt (cellNum r.2 j) (boundsAt W j).1 ||
        gtOpt (cellNum r.2 j) (boundsAt W j).2) = true
      have hb : boundsAt W j = (none, none) := by
        unfold boundsAt
        rw [hv]
        rfl
      rw [hb]
      rcases cellNum r.2 j with _ | x <;> simp [ltOpt, gtOpt]
    · unfold boundsAt
      rw [hv]
      rfl
  · intro W j r hr hc
    exact List.mem_filter.mpr ⟨hr, by rw [hnone W j r hc]; rfl⟩
  · intro df r hr hnan
    exact nan_row_stays hnan hr

/-- C10 witness: the all-`NaN` single-row table keeps its row, flags nothing
and computes `NaN` bounds. -/
theorem c10_witness :
    flaggedAt [(0, [Value.num none])] 0 = [] ∧
    boundsAt [(0, [Value.num none])] 0 = (none, none) ∧
    (0, [Value.num none]) ∈ keptAt [(0, [Value.num none])] 0 ∧
    (0, [Value.num none]) ∈ (runClean dfNaN).working :=
  ⟨(c10_nan_never_flagged.2.1 [(0, [Value.num none])] 0 rfl).1,
   (c10_nan_never_flagged.2.1 [(0, [Value.num none])] 0 rfl).2,
   c10_nan_never_flagged.2.2.1 [(0, [Value.num none])] 0 (0, [Value.num none])
     (List.mem_cons_self _ _) rfl,
   c10_nan_never_flagged.2.2.2 dfNaN (0, [Value.num none])
     (List.mem_cons_self _ _) (fun j => by cases j <;> rfl)⟩

lemma stAfter_outliers_succ (df : DataFrame) (k : Nat) :
    (stAfter df (k + 1)).outliers = (stAfter df k).outliers ++ flaggedAtStep df k := by
  by_cases hk : k < df.cols.length
  · rw [stAfter_succ df hk]
    have hcj : df.cols[k]? = some df.cols[k] := List.getElem?_eq_getElem hk
    unfold flaggedAtStep
    rw [hcj]
    cases hn : (df.cols[k]).numeric
    · rw [processCol_nonnumeric hn]
      show (stAfter df k).outliers = (stAfter df k).outliers ++
        (if (df.cols[k]).numeric = true
          then flaggedAt (stAfter df k).working k else [])
      rw [hn]
      simp
    · rw [processCol_numeric hn]
      show (stAfter df k).outliers ++ flaggedAt (stAfter df k).working k =
        (stAfter df k).outliers ++
          (if (df.cols[k]).numeric = true
            then flaggedAt (stAfter df k).working k else [])
      rw [hn, if_pos rfl]
  · push_neg at hk
    have h1 : flaggedAtStep df k = [] := by
      unfold flaggedAtStep
      rw [List.getElem?_eq_none hk]
    have h2 : stAfter df (k + 1) = stAfter df k := by
      unfold stAfter
      rw [List.take_of_length_le (by rw [List.enum_length]; omega),
        List.take_of_length_le (by rw [List.enum_length]; omega)]
    rw [h1, h2, List.append_nil]

/-- C2: the quartile bounds used while column `j` is processed are computed
from the working table at that moment; the rows flagged at a column are
appended to the collected outliers exactly during that column's pass; and a
row flagged (hence removed) at an earlier column `i < j` is no longer in the
working table at step `j` — so it contributes no value to the later
quartiles — and can never be flagged at step `j`. -/
theorem c2_quartiles_on_shrinking_working (df : DataFrame)
    (h2 : 2 ≤ (df.cols.filter Col.numeric).length)
    {i j : Nat} (hij : i < j) (r : Nat × Row) (hr : r ∈ flaggedAtStep df i) :
    boundsAt (stAfter df j).working j =
      boundsOf (colValsNN (stAfter df j).working j) ∧
    (stAfter df (i + 1)).outliers = (stAfter df i).outliers ++ flaggedAtStep df i ∧
    r ∉ (stAfter df j).working ∧ r ∉ flaggedAtStep df j := by
  refine ⟨rfl, stAfter_outliers_succ df i, flagged_not_in_later hij hr, ?_⟩
  intro hcon
  obtain ⟨hk, hnum, hmem, hpred⟩ := flaggedAtStep_cases hcon
  exact flagged_not_in_later hij hr hmem

lemma outPred_iff_specFlagged (W : List (Nat × Row)) (j : Nat) (r : Nat × Row) :
    outPred W j r = true ↔ specFlagged W j r := by
  unfold outPred isOutlierCell specFlagged boundsAt
  rw [specLowerBound_eq, specUpperBound_eq]
  rcases hc : cellNum r.2 j with _ | x <;>
    rcases hl : (boundsOf (colValsNN W j)).1 with _ | lb <;>
      rcases hu : (boundsOf (colValsNN W j)).2 with _ | ub <;>
        simp [ltOpt, gtOpt]

/-- C1: a row of the current working table is flagged by a numeric column
exactly when its value there is strictly below `Q1 - 1.5*IQR` or strictly
above `Q3 + 1.5*IQR`, with the quartiles obtained by the spec's
rank-`p*(n-1)` floor/ceil linear interpolation over the column's current
values; a value equal to either bound is never flagged. -/
theorem c1_flag_iff_strict_bounds (W : List (Nat × Row)) (j : Nat) (r : Nat × Row) :
    (r ∈ flaggedAt W j ↔ r ∈ W ∧ specFlagged W j r) ∧
    (∀ x : ℚ, cellNum r.2 j = some x →
      ((boundsAt W j).1 = some x ∨ (boundsAt W j).2 = some x) →
      r ∉ flaggedAt W j) := by
  constructor
  · exact List.mem_filter.trans
      (and_congr_right fun _ => outPred_iff_specFlagged W j r)
  · intro x hx hbound hmem
    have hpred : outPred W j r = true := List.of_mem_filter hmem
    unfold outPred isOutlierCell at hpred
    rw [hx] at hpred
    rcases hbound with hl | hu
    · rw [hl] at hpred
      have hself : ltOpt (some x) (some x) = false := by simp [ltOpt]
      rw [hself, Bool.false_or] at hpred
      rcases hu2 : (boundsAt W j).2 with _ | u
      · rw [hu2] at hpred
        exact absurd hpred (by simp [gtOpt])
      · rw [hu2] at hpred
        have hux : u < x := by simpa [gtOpt] using hpred
        have hle : x ≤ u := boundsOf_lb_le_ub
          (show boundsOf (colValsNN W j) = (some x, some u) from Prod.ext hl hu2)
        linarith
    · rw [hu] at hpred
      have hself : gtOpt (some x) (some x) = false := by simp [gtOpt]
      rw [hself, Bool.or_false] at hpred
      rcases hl2 : (boundsAt W j).1 with _ | l
      · rw [hl2] at hpred
        exact absurd hpred (by simp [ltOpt])
      · rw [hl2] at hpred
        have hlx : x < l := by simpa [ltOpt] using hpred
        have hle : l ≤ x := boundsOf_lb_le_ub
          (show boundsOf (colValsNN W j) = (some l, some x) from Prod.ext hl2 hu)
        linarith

/-- C1 witness: in the docstring example column the row with value `1000`
satisfies the spec criterion and is flagged, and in an all-equal column a
value sitting exactly on both bounds is not flagged. -/
theorem c1_witness :
    (3, [Value.num (some 1000)]) ∈ flaggedAt (initSt dfA).working 0 ∧
    (0, [Value.num (some 5)]) ∉
      flaggedAt [(0, [Value.num (some 5)]), (1, [Value.num (some 5)])] 0 := by
  constructor
  · refine (c1_flag_iff_strict_bounds (initSt dfA).working 0
      (3, [Value.num (some 1000)])).1.mpr ⟨?_, ?_⟩
    · with_unfolding_all decide
    · refine ⟨1000, rfl, Or.inr ⟨628, ?_, by norm_num⟩⟩
      with_unfolding_all decide
  · refine (c1_flag_iff_strict_bounds
      [(0, [Value.num (some 5)]), (1, [Value.num (some 5)])] 0
      (0, [Value.num (some 5)])).2 5 rfl (Or.inl ?_)
    with_unfolding_all decide

/-- C2 witness: in the two-numeric-column table the row flagged by column
`A` is gone from the working table of column `B` and cannot be flagged
there. -/
theorem c2_witness :
    (3, [Value.num (some 1000), Value.num (some 4)]) ∉ (stAfter dfTwo 1).working ∧
    (3, [Value.num (some 1000), Value.num (some 4)]) ∉ flaggedAtStep dfTwo 1 := by
  have h := c2_quartiles_on_shrinking_working dfTwo (by with_unfolding_all decide)
    (show 0 < 1 by norm_num) (3, [Value.num (some 1000), Value.num (some 4)])
    (by with_unfolding_all decide)
  exact ⟨h.2.2.1, h.2.2.2⟩

/-- C4 counterexample: on the spec's own example column `[1, 2, 3, 1000]`
the first quartile the code computes is `1.75`, not the claimed `1.5`. -/
theorem c4_counterexample :
    quantile (colValsNN (initSt dfA).working 0) (1/4) = some (7/4) ∧
    (7/4 : ℚ) ≠ 3/2 := by
  constructor
  · with_unfolding_all decide
  · norm_num

/-- C4 (amended): on the single-column table `[1, 2, 3, 1000]` the code
computes `Q1 = 1.75`, `Q3 = 252.25`, `IQR = 250.5` and bounds
`[-374, 628]`; the row with value `1000` is still flagged and removed and
the kept table is `[1, 2, 3]`. -/
theorem c4_amended_run :
    quantile (colValsNN (initSt dfA).working 0) (1/4) = some (7/4) ∧
    quantile (colValsNN (initSt dfA).working 0) (3/4) = some (1009/4) ∧
    iqrOf (colValsNN (initSt dfA).working 0) = some (501/2) ∧
    boundsOf (colValsNN (initSt dfA).working 0) = (some (-374), some 628) ∧
    (runClean dfA).outliers = [(3, [Value.num (some 1000)])] ∧
    (clean_outliers dfA).1.rows =
      [[Value.num (some 1)], [Value.num (some 2)], [Value.num (some 3)]] := by
  refine ⟨?_, ?_, ?_, ?_, ?_, ?_⟩ <;> with_unfolding_all decide

/-- C5 counterexample: a completed call that collected zero outliers writes
a file whose header line is empty instead of listing the original column
names. -/
theorem c5_counterexample :
    (runClean dfB).outliers = [] ∧
    (clean_outliers dfB).2.1.header = [] ∧
    dfB.cols.map Col.name = ["A"] := by
  refine ⟨?_, ?_, ?_⟩ <;> with_unfolding_all decide

/-- C5 (amended): when at least one outlier was collected the file's header
lists the original column names in order and there is one data row per
collected record with no index column; when zero outliers were collected the
file has an empty header and no data rows. -/
theorem c5_header_iff_outliers (df : DataFrame) :
    ((runClean df).outliers ≠ [] →
      (clean_outliers df).2.1.header = df.cols.map Col.name ∧
      (clean_outliers df).2.1.dataRows = (runClean df).outliers.map Prod.snd) ∧
    ((runClean df).outliers = [] → (clean_outliers df).2.1 = ⟨[], []⟩) := by
  constructor
  · intro hne
    refine ⟨?_, rfl⟩
    show (outliersCsv df (runClean df).outliers).header = _
    unfold outliersCsv
    rw [if_neg (by simpa using hne)]
  · intro hemp
    show outliersCsv df (runClean df).outliers = _
    rw [hemp]
    rfl

/-- C5 witness: the docstring example run collected an outlier, so its file
header is the original column list. -/
theorem c5_witness :
    (clean_outliers dfA).2.1.header = dfA.cols.map Col.name ∧
    (clean_outliers dfA).2.1.dataRows = (runClean dfA).outliers.map Prod.snd :=
  (c5_header_iff_outliers dfA).1 (by with_unfolding_all decide)

/-- C6 counterexample: in the three-row column `[0, 0, 1]` the differing row
is not flagged (the bounds are `[-0.75, 1.25]`), so the claim fails for
tables with fewer than four rows: nothing is removed at all. -/
theorem c6_counterexample :
    (runClean dfZ3).working = dfZ3.rows.enum ∧ (runClean dfZ3).outliers = [] := by
  constructor
  · with_unfolding_all decide
  · with_unfolding_all decide

/-- C6 (amended): a nonempty all-equal value list yields `IQR = 0` and both
bounds equal to that value; and in every table whose first numeric column
has at least four rows, all equal except one differing row, that differing
row is flagged by that column and removed from the kept table.  (For two or
three rows the differing row escapes the bounds, see the counterexample.) -/
theorem c6_zero_variance_amended :
    (∀ (xs : List ℚ) (v : ℚ), xs ≠ [] → (∀ x ∈ xs, x = v) →
      iqrOf xs = some 0 ∧ boundsOf xs = (some v, some v)) ∧
    (∀ (df : DataFrame) (cpre : List Col) (c : Col) (cpost : List Col)
      (R1 : List Row) (rT : Row) (R2 : List Row) (v w : ℚ),
      df.cols = cpre ++ c :: cpost →
      (∀ c0 ∈ cpre, c0.numeric = false) →
      c.numeric = true →
      df.rows = R1 ++ rT :: R2 →
      cellNum rT cpre.length = some w →
      (∀ r ∈ R1 ++ R2, cellNum r cpre.length = some v) →
      w ≠ v →
      4 ≤ df.rows.length →
      (R1.length, rT) ∈ flaggedAtStep df cpre.length ∧
      (R1.length, rT) ∉ (runClean df).working) := by
  constructor
  · intro xs v hne hall
    have h1 : quantile xs (1/4) = some v :=
      quantile_all_eq hne hall (by norm_num) (by norm_num)
    have h3 : quantile xs (3/4) = some v :=
      quantile_all_eq hne hall (by norm_num) (by norm_num)
    constructor
    · unfold iqrOf
      rw [h1, h3]
      show some (v - v) = some 0
      rw [show v - v = 0 from by ring]
    · unfold boundsOf iqrOf
      rw [h1, h3]
      show (some (v - 3/2 * (v - v)), some (v + 3/2 * (v - v))) = (some v, some v)
      rw [show v - 3/2 * (v - v) = v from by ring,
        show v + 3/2 * (v - v) = v from by ring]
  · intro df cpre c cpost R1 rT R2 v w hcols hpre hnum hrows hcw hcv hwv hlen
    have hstep : stAfter df cpre.length = initSt df := by
      unfold stAfter
      have henum : (df.cols.enum).take cpre.length = cpre.enum := by
        rw [hcols, List.enum_append]
        exact List.take_left' (by rw [List.enum_length])
      rw [henum]
      refine foldl_id_of_nonnumeric ?_
      intro p hp
      refine hpre p.2 ?_
      have h2 : p.2 ∈ (cpre.enum).map Prod.snd := List.mem_map_of_mem Prod.snd hp
      rwa [List.enum_map_snd] at h2
    have hcj : df.cols[cpre.length]? = some c := by
      rw [hcols, List.getElem?_append_right le_rfl]
      simp
    have hmemw : (R1.length, rT) ∈ (initSt df).working := by
      show (R1.length, rT) ∈ df.rows.enum
      rw [hrows, List.enum_append]
      refine List.mem_append_right _ ?_
      rw [List.enumFrom_cons]
      exact List.mem_cons_self _ _
    have hm : 3 ≤ R1.length + R2.length := by
      rw [hrows] at hlen
      simp [List.length_append] at hlen
      omega
    have hvals : colValsNN (initSt df).working cpre.length =
        List.replicate R1.length v ++ w :: List.replicate R2.length v := by
      show colValsNN (df.rows.enum) cpre.length = _
      rw [colValsNN_enum, hrows, List.filterMap_append,
        List.filterMap_cons_some (f := fun r => cellNum r cpre.length) hcw,
        filterMap_const_some (fun r hr => hcv r (List.mem_append_left _ hr)),
        filterMap_const_some (fun r hr => hcv r (List.mem_append_right _ hr))]
    have hperm1 : List.Perm (colValsNN (initSt df).working cpre.length)
        (w :: List.replicate (R1.length + R2.length) v) := by
      rw [hvals, List.replicate_add]
      exact List.perm_middle
    have hperm2 : List.Perm (colValsNN (initSt df).working cpre.length)
        (List.replicate (R1.length + R2.length) v ++ [w]) := by
      refine hperm1.trans ?_
      have h5 := @List.perm_middle ℚ w (List.replicate (R1.length + R2.length) v) []
      simpa using h5.symm
    have hpred : outPred (initSt df).working cpre.length (R1.length, rT) = true := by
      unfold outPred isOutlierCell
      show (ltOpt (cellNum rT cpre.length)
          (boundsAt (initSt df).working cpre.length).1 ||
        gtOpt (cellNum rT cpre.length)
          (boundsAt (initSt df).working cpre.length).2) = true
      rw [hcw]
      rcases hwv.lt_or_lt with hlt | hgt
      · obtain ⟨⟨f, hf0, hf14, hq1⟩, hq3⟩ := quantile_one_off_low hm hlt hperm1
        have hb : boundsAt (initSt df).working cpre.length =
            (some (v - f * (v - w) - 3/2 * (v - (v - f * (v - w)))),
             some (v + 3/2 * (v - (v - f * (v - w))))) := by
          unfold boundsAt boundsOf iqrOf
          rw [hq1, hq3]
          rfl
        rw [hb]
        simp only [ltOpt, gtOpt, Bool.or_eq_true, decide_eq_true_eq]
        left
        nlinarith [mul_pos (sub_pos.mpr hlt) (show (0 : ℚ) < 1 - 5/2 * f from by linarith)]
      · obtain ⟨hq1, f, hf0, hf14, hq3⟩ := quantile_one_off_high hm hgt hperm2
        have hb : boundsAt (initSt df).working cpre.length =
            (some (v - 3/2 * (v + f * (w - v) - v)),
             some (v + f * (w - v) + 3/2 * (v + f * (w - v) - v))) := by
          unfold boundsAt boundsOf iqrOf
          rw [hq1, hq3]
          rfl
        rw [hb]
        simp only [ltOpt, gtOpt, Bool.or_eq_true, decide_eq_true_eq]
        right
        nlinarith [mul_pos (sub_pos.mpr hgt) (show (0 : ℚ) < 1 - 5/2 * f from by linarith)]
    have hflag : (R1.length, rT) ∈ flaggedAtStep df cpre.length := by
      have hstepEq : flaggedAtStep df cpre.length =
          flaggedAt (stAfter df cpre.length).working cpre.length := by
        unfold flaggedAtStep
        rw [hcj]
        show (if c.numeric = true
            then flaggedAt (stAfter df cpre.length).working cpre.length else []) = _
        rw [if_pos hnum]
      rw [hstepEq, hstep]
      exact List.mem_filter.mpr ⟨hmemw, hpred⟩
    exact ⟨hflag, flagged_not_in_final hflag⟩

/-- C6 witness: the all-equal list `[5, 5]` has zero IQR and degenerate
bounds, and in the four-row column `[0, 0, 0, 1]` the differing row is
flagged and removed. -/
theorem c6_witness :
    (iqrOf [5, 5] = some 0 ∧ boundsOf [5, 5] = (some 5, some 5)) ∧
    ((3, [Value.num (some 1)]) ∈ flaggedAtStep dfZ4 0 ∧
     (3, [Value.num (some 1)]) ∉ (runClean dfZ4).working) := by
  constructor
  · exact c6_zero_variance_amended.1 [5, 5] 5 (by simp)
      (by intro x hx; simp at hx; exact hx)
  · exact c6_zero_variance_amended.2 dfZ4 [] ⟨"A", true⟩ []
      [[Value.num (some 0)], [Value.num (some 0)], [Value.num (some 0)]]
      [Value.num (some 1)] [] 0 1 rfl (by intro c0 h; exact absurd h (List.not_mem_nil c0))
      rfl rfl rfl (by intro r hr; simp at hr; rw [hr]; rfl) (by norm_num)
      (by with_unfolding_all decide)
